import Mathlib

/-!
Verification of the narucode lexical front end described by the repository's
specification: a Characterizer (Unicode-aware character classification) and a
Tokenizer (a multi-state lexer with an explicit context stack for nested
string interpolation), plus the website's selection-to-token mapping from
src/packages/website/src/pages/index.tsx.

The characterizer and tokenizer implementations themselves are not among the
repository's staged source files (only their callers are: the website views
and an example script), so those two components are modelled from the
specification, as noted on each definition.
-/

namespace Narucode

/-- Modelled from the spec: the fixed enumeration of coarse character
categories of the Characterizer (spec section 4.1); the implementation of
the package named characterizer is missing from the staged sources. -/
inductive CharacterType where
  | whitespace
  | newline
  | letter
  | digit
  | quote
  | hash
  | bracket
  | operatorSymbol
  | other
deriving DecidableEq

/-- A classified character: the literal code point, its numeric scalar value,
and its category (spec section 3, data model of the Characterizer). -/
structure Character where
  char : Char
  codePoint : Nat
  type : CharacterType
deriving DecidableEq

/-- Modelled from the spec: line-terminator scalar values (line feed,
carriage return, and the other Unicode line terminators). -/
def newlineCodes : List Nat := [0x0A, 0x0D, 0x0B, 0x0C, 0x85, 0x2028, 0x2029]

/-- Modelled from the spec: space, tab and the Unicode space separators,
excluding line terminators. -/
def whitespaceCodes : List Nat :=
  [0x20, 0x09, 0xA0, 0x1680, 0x2000, 0x2001, 0x2002, 0x2003, 0x2004, 0x2005,
   0x2006, 0x2007, 0x2008, 0x2009, 0x200A, 0x202F, 0x205F, 0x3000]

/-- Modelled from the spec: letter categories covering the scripts the
repository's examples exercise — ASCII letters and the Hangul blocks
(Jamo, compatibility Jamo, and precomposed syllables). -/
def isLetterCode (n : Nat) : Bool :=
  decide ((0x41 ≤ n ∧ n ≤ 0x5A) ∨ (0x61 ≤ n ∧ n ≤ 0x7A) ∨
    (0x1100 ≤ n ∧ n ≤ 0x11FF) ∨ (0x3131 ≤ n ∧ n ≤ 0x318E) ∨
    (0xAC00 ≤ n ∧ n ≤ 0xD7A3))

/-- The bracket characters of the spec's bracket category. -/
def bracketCodes : List Nat := [0x28, 0x29, 0x5B, 0x5D, 0x7B, 0x7D]

/-- Modelled from the spec: ASCII punctuation and symbol scalar values not
covered by the earlier categories (the operatorSymbol category). -/
def operatorSymbolCodes : List Nat :=
  [0x21, 0x24, 0x25, 0x26, 0x27, 0x2A, 0x2B, 0x2C, 0x2D, 0x2E, 0x2F, 0x3A,
   0x3B, 0x3C, 0x3D, 0x3E, 0x3F, 0x40, 0x5C, 0x5E, 0x5F, 0x60, 0x7C, 0x7E]

/-- Modelled from the spec: total, stateless classification of one scalar
value into exactly one category (spec section 4.1); everything unmatched
falls into the category named other. -/
def classify (c : Char) : CharacterType :=
  if c.toNat ∈ newlineCodes then .newline
  else if c.toNat ∈ whitespaceCodes then .whitespace
  else if isLetterCode c.toNat then .letter
  else if 0x30 ≤ c.toNat ∧ c.toNat ≤ 0x39 then .digit
  else if c.toNat = 0x22 then .quote
  else if c.toNat = 0x23 then .hash
  else if c.toNat ∈ bracketCodes then .bracket
  else if c.toNat ∈ operatorSymbolCodes then .operatorSymbol
  else .other

/-- The Character record built for one input code point. -/
def toCharacter (c : Char) : Character := ⟨c, c.toNat, classify c⟩

/-- Modelled from the spec: the Characterizer — one Character per input
Unicode scalar value, in input order (spec section 4.1); the lazy sequence
of the implementation is embedded as the list of its elements. -/
def characterize (text : String) : List Character := text.data.map toCharacter

/-- Modelled from the spec: the fixed enumeration of token kinds
(spec section 4.2). -/
inductive TokenType where
  | identifier
  | keyword
  | number
  | stringLiteral
  | interpolationStart
  | interpolationEnd
  | operator
  | bracket
  | comment
  | whitespace
  | newline
  | invalid
deriving DecidableEq

/-- A token: its kind, the index of its first Character in the input
Character sequence, and the contiguous run of Characters composing it
(spec section 3, data model of the Tokenizer). -/
structure Token where
  type : TokenType
  offset : Nat
  characters : List Character
deriving DecidableEq

/-- Modelled from the spec: a frame of the tokenizer's explicit context
stack — an enclosing string literal, or an interpolation expression with
its own bracket-depth counter (spec sections 4.2 and 9). -/
inductive LexContext where
  | stringLit
  | interp (depth : Nat)
deriving DecidableEq

/-- A character that may continue an identifier (letter or digit runs). -/
def isIdentChar (c : Character) : Bool :=
  match c.type with
  | .letter => true
  | .digit => true
  | _ => false

/-- A decimal-digit character. -/
def isDigitChar (c : Character) : Bool :=
  match c.type with
  | .digit => true
  | _ => false

/-- A whitespace-category character. -/
def isWsChar (c : Character) : Bool :=
  match c.type with
  | .whitespace => true
  | _ => false

/-- A newline-category character. -/
def isNlChar (c : Character) : Bool :=
  match c.type with
  | .newline => true
  | _ => false

/-- A character of the category named other. -/
def isOtherChar (c : Character) : Bool :=
  match c.type with
  | .other => true
  | _ => false

/-- Splits string-literal content from what ends it: the returned first list
is accumulated verbatim content, the second begins with the closing quote or
with an interpolation-start hash-parenthesis pair, or is empty when the
input ran out inside the string. -/
def takeContent : List Character → List Character × List Character
  | [] => ([], [])
  | c :: rest =>
    match c.type with
    | .quote => ([], c :: rest)
    | .hash =>
      match rest with
      | c2 :: _ =>
        if c2.char = '(' then ([], c :: rest)
        else
          let p := takeContent rest
          (c :: p.1, p.2)
      | [] => ([c], [])
    | _ =>
      let p := takeContent rest
      (c :: p.1, p.2)

/-- Modelled from the spec: the multi-character operator table; only the
two-character operator written as colon-equals is evidenced by the examples
(spec section 9 leaves the full table as configuration data). -/
def operatorTable : List (List Char) := [[':', '=']]

/-- Whether a table entry's characters agree with the beginning of the
remaining input. -/
def charsAgree : List Char → List Character → Bool
  | [], _ => true
  | _ :: _, [] => false
  | e :: es, c :: cs => e == c.char && charsAgree es cs

/-- Longest-match length against the operator table (ties prefer the
earliest-defined entry, spec section 4.2); zero when no entry matches. -/
def matchOpLen (cs : List Character) : Nat :=
  operatorTable.foldl (fun best e => if best < e.length ∧ charsAgree e cs then e.length else best) 0

/-- Modelled from the spec: the tokenizer's state machine (spec section 4.2),
driven by an explicit stack of contexts. A stringLit frame on top of the
stack means string content is being accumulated; otherwise ordinary
token-lexing rules apply, with an interp frame tracking parenthesis depth of
the innermost interpolation expression. The fuel argument only bounds the
recursion; one unit is spent per emitted token and every step consumes at
least one character, so fuel equal to the input length is always enough. -/
def tokenizeGo : Nat → List Character → Nat → List LexContext → List Token
  | 0, _, _, _ => []
  | _ + 1, [], _, _ => []
  | fuel + 1, c :: rest, off, stack =>
    match stack with
    | .stringLit :: stk =>
      match c.type with
      | .quote => ⟨.stringLiteral, off, [c]⟩ :: tokenizeGo fuel rest (off + 1) stk
      | .hash =>
        match rest with
        | c2 :: rest2 =>
          if c2.char = '(' then
            ⟨.interpolationStart, off, [c, c2]⟩ ::
              tokenizeGo fuel rest2 (off + 2) (.interp 0 :: .stringLit :: stk)
          else
            let p := takeContent rest
            ⟨(if p.2.isEmpty then TokenType.invalid else TokenType.stringLiteral), off, c :: p.1⟩ ::
              tokenizeGo fuel p.2 (off + 1 + p.1.length) (.stringLit :: stk)
        | [] => [⟨.invalid, off, [c]⟩]
      | _ =>
        let p := takeContent rest
        ⟨(if p.2.isEmpty then TokenType.invalid else TokenType.stringLiteral), off, c :: p.1⟩ ::
          tokenizeGo fuel p.2 (off + 1 + p.1.length) (.stringLit :: stk)
    | _ =>
      match c.type with
      | .letter =>
        ⟨.identifier, off, c :: rest.takeWhile isIdentChar⟩ ::
          tokenizeGo fuel (rest.dropWhile isIdentChar)
            (off + 1 + (rest.takeWhile isIdentChar).length) stack
      | .digit =>
        ⟨.number, off, c :: rest.takeWhile isDigitChar⟩ ::
          tokenizeGo fuel (rest.dropWhile isDigitChar)
            (off + 1 + (rest.takeWhile isDigitChar).length) stack
      | .whitespace =>
        ⟨.whitespace, off, c :: rest.takeWhile isWsChar⟩ ::
          tokenizeGo fuel (rest.dropWhile isWsChar)
            (off + 1 + (rest.takeWhile isWsChar).length) stack
      | .newline =>
        ⟨.newline, off, c :: rest.takeWhile isNlChar⟩ ::
          tokenizeGo fuel (rest.dropWhile isNlChar)
            (off + 1 + (rest.takeWhile isNlChar).length) stack
      | .hash =>
        match rest with
        | c2 :: rest2 =>
          match c2.type with
          | .quote =>
            ⟨.stringLiteral, off, [c, c2]⟩ ::
              tokenizeGo fuel rest2 (off + 2) (.stringLit :: stack)
          | _ => ⟨.invalid, off, [c]⟩ :: tokenizeGo fuel rest (off + 1) stack
        | [] => [⟨.invalid, off, [c]⟩]
      | .quote => ⟨.invalid, off, [c]⟩ :: tokenizeGo fuel rest (off + 1) stack
      | .bracket =>
        if c.char = '(' then
          match stack with
          | .interp d :: s =>
            ⟨.bracket, off, [c]⟩ :: tokenizeGo fuel rest (off + 1) (.interp (d + 1) :: s)
          | _ => ⟨.bracket, off, [c]⟩ :: tokenizeGo fuel rest (off + 1) stack
        else if c.char = ')' then
          match stack with
          | .interp 0 :: s =>
            ⟨.interpolationEnd, off, [c]⟩ :: tokenizeGo fuel rest (off + 1) s
          | .interp (d + 1) :: s =>
            ⟨.bracket, off, [c]⟩ :: tokenizeGo fuel rest (off + 1) (.interp d :: s)
          | _ => ⟨.bracket, off, [c]⟩ :: tokenizeGo fuel rest (off + 1) stack
        else ⟨.bracket, off, [c]⟩ :: tokenizeGo fuel rest (off + 1) stack
      | .operatorSymbol =>
        if matchOpLen (c :: rest) ≤ 1 then
          ⟨.operator, off, [c]⟩ :: tokenizeGo fuel rest (off + 1) stack
        else
          ⟨.operator, off, (c :: rest).take (matchOpLen (c :: rest))⟩ ::
            tokenizeGo fuel ((c :: rest).drop (matchOpLen (c :: rest)))
              (off + matchOpLen (c :: rest)) stack
      | .other =>
        ⟨.invalid, off, c :: rest.takeWhile isOtherChar⟩ ::
          tokenizeGo fuel (rest.dropWhile isOtherChar)
            (off + 1 + (rest.takeWhile isOtherChar).length) stack

/-- Modelled from the spec: the Tokenizer — consumes a Character sequence and
produces the Token sequence (spec section 4.2); the lazy sequence of the
implementation is embedded as the list of its elements. -/
def tokenize (cs : List Character) : List Token := tokenizeGo cs.length cs 0 []

/-- The offset-chaining invariant of a token list: each token is non-empty,
the first starts at the given offset, and every following token starts where
the previous one ends. -/
def chained : Nat → List Token → Prop
  | _, [] => True
  | off, t :: ts => t.characters ≠ [] ∧ t.offset = off ∧ chained (off + t.characters.length) ts

lemma takeContent_append (cs : List Character) :
    (takeContent cs).1 ++ (takeContent cs).2 = cs := by
  induction cs with
  | nil => rfl
  | cons c rest ih =>
    obtain ⟨ch, cp, ty⟩ := c
    cases ty
    case quote => simp [takeContent]
    case hash =>
      cases rest with
      | nil => simp [takeContent]
      | cons c2 r2 =>
        by_cases h : c2.char = '('
        · simp [takeContent, h]
        · simp only [takeContent, h] at ih ⊢
          simp [ih]
    all_goals simp [takeContent, ih]

lemma takeContent_snd_length (cs : List Character) :
    (takeContent cs).2.length ≤ cs.length := by
  have h := congrArg List.length (takeContent_append cs)
  simp only [List.length_append] at h
  omega

lemma charsAgree_length {e : List Char} {cs : List Character} (h : charsAgree e cs = true) :
    e.length ≤ cs.length := by
  induction e generalizing cs with
  | nil => simp
  | cons a es ih =>
    cases cs with
    | nil => simp [charsAgree] at h
    | cons c cs2 =>
      simp only [charsAgree, Bool.and_eq_true] at h
      have := ih h.2
      simp [List.length_cons]
      omega

lemma matchOpLen_le (cs : List Character) : matchOpLen cs ≤ cs.length := by
  simp only [matchOpLen, operatorTable, List.foldl]
  split
  · rename_i hcond
    exact charsAgree_length hcond.2
  · exact Nat.zero_le _

lemma partition_cons {ts : List Token} {cs cs2 : List Character} {off2 : Nat}
    (ty : TokenType) (tc : List Character) (off : Nat)
    (h : ts.flatMap Token.characters = cs2 ∧ chained off2 ts)
    (hne : tc ≠ []) (hcs : tc ++ cs2 = cs) (hoff : off2 = off + tc.length) :
    ((⟨ty, off, tc⟩ : Token) :: ts).flatMap Token.characters = cs ∧
      chained off ((⟨ty, off, tc⟩ : Token) :: ts) := by
  subst hcs
  refine ⟨by simp [h.1], ?_⟩
  show tc ≠ [] ∧ off = off ∧ chained (off + tc.length) ts
  exact ⟨hne, rfl, hoff ▸ h.2⟩

lemma partition_single {cs : List Character} (ty : TokenType) (tc : List Character) (off : Nat)
    (hne : tc ≠ []) (hcs : tc = cs) :
    ([⟨ty, off, tc⟩] : List Token).flatMap Token.characters = cs ∧
      chained off ([⟨ty, off, tc⟩] : List Token) := by
  subst hcs
  refine ⟨by simp, ?_⟩
  show tc ≠ [] ∧ off = off ∧ chained (off + tc.length) []
  exact ⟨hne, rfl, trivial⟩

/-- The tokenizer's partition invariant, for any fuel at least the input
length: the emitted tokens' characters concatenate back to the input and the
token offsets chain contiguously from the starting offset. -/
lemma tokenizeGo_partition :
    ∀ (fuel : Nat) (cs : List Character) (off : Nat) (stk : List LexContext),
      cs.length ≤ fuel →
      (tokenizeGo fuel cs off stk).flatMap Token.characters = cs ∧
        chained off (tokenizeGo fuel cs off stk) := by
  intro fuel cs off stk
  induction fuel, cs, off, stk using tokenizeGo.induct with
  | case1 x x1 x2 =>
    intro h
    cases x with
    | nil => exact ⟨rfl, trivial⟩
    | cons a l => simp at h
  | case2 n x x1 =>
    exact fun _ => ⟨rfl, trivial⟩
  | case3 fuel c rest off stk h1 ih =>
    intro h
    have hr : rest.length ≤ fuel := by simp at h; omega
    simp only [tokenizeGo, h1]
    exact partition_cons .stringLiteral [c] off (ih hr) (by simp) (by simp) (by simp)
  | case4 fuel c off stk h1 c2 tail h2 ih =>
    intro h
    have hr : tail.length ≤ fuel := by simp at h; omega
    simp only [tokenizeGo, h1]
    rw [if_pos h2]
    exact partition_cons .interpolationStart [c, c2] off (ih hr) (by simp) (by simp) (by simp)
  | case5 fuel c off stk h1 c2 tail h2 p ih =>
    intro h
    unfold p at ih
    have hr : ((takeContent (c2 :: tail)).2).length ≤ fuel := by
      have := takeContent_snd_length (c2 :: tail)
      simp at h this ⊢
      omega
    simp only [tokenizeGo, h1]
    rw [if_neg h2]
    exact partition_cons _ (c :: (takeContent (c2 :: tail)).1) off (ih hr) (by simp)
      (by simp [takeContent_append]) (by simp only [List.length_cons]; omega)
  | case6 fuel c off stk h1 =>
    intro h
    simp only [tokenizeGo, h1]
    exact partition_single .invalid [c] off (by simp) rfl
  | case7 fuel c rest off stk p h1 h2 ih =>
    intro h
    unfold p at ih
    have hr : ((takeContent rest).2).length ≤ fuel := by
      have := takeContent_snd_length rest
      simp at h
      omega
    obtain ⟨ch, cp, ty⟩ := c
    cases ty
    case quote => exact absurd rfl h1
    case hash => exact absurd rfl h2
    all_goals
      simp only [tokenizeGo]
      exact partition_cons _ (⟨ch, cp, _⟩ :: (takeContent rest).1) off (ih hr) (by simp)
        (by simp [takeContent_append]) (by simp only [List.length_cons]; omega)
  | case8 fuel c rest off stack h1 hstk ih =>
    intro h
    have hr : rest.length ≤ fuel := by simp at h; omega
    have hd : (rest.dropWhile isIdentChar).length ≤ fuel :=
      le_trans (List.Sublist.length_le (List.dropWhile_sublist _)) hr
    rcases stack with _ | ⟨_ | d, s⟩
    on_goal 2 => exact (hstk s rfl).elim
    all_goals
      simp only [tokenizeGo, h1]
      exact partition_cons .identifier (c :: rest.takeWhile isIdentChar) off (ih hd) (by simp)
        (by simp [List.takeWhile_append_dropWhile]) (by simp only [List.length_cons]; omega)
  | case9 fuel c rest off stack h1 hstk ih =>
    intro h
    have hr : rest.length ≤ fuel := by simp at h; omega
    have hd : (rest.dropWhile isDigitChar).length ≤ fuel :=
      le_trans (List.Sublist.length_le (List.dropWhile_sublist _)) hr
    rcases stack with _ | ⟨_ | d, s⟩
    on_goal 2 => exact (hstk s rfl).elim
    all_goals
      simp only [tokenizeGo, h1]
      exact partition_cons .number (c :: rest.takeWhile isDigitChar) off (ih hd) (by simp)
        (by simp [List.takeWhile_append_dropWhile]) (by simp only [List.length_cons]; omega)
  | case10 fuel c rest off stack h1 hstk ih =>
    intro h
    have hr : rest.length ≤ fuel := by simp at h; omega
    have hd : (rest.dropWhile isWsChar).length ≤ fuel :=
      le_trans (List.Sublist.length_le (List.dropWhile_sublist _)) hr
    rcases stack with _ | ⟨_ | d, s⟩
    on_goal 2 => exact (hstk s rfl).elim
    all_goals
      simp only [tokenizeGo, h1]
      exact partition_cons .whitespace (c :: rest.takeWhile isWsChar) off (ih hd) (by simp)
        (by simp [List.takeWhile_append_dropWhile]) (by simp only [List.length_cons]; omega)
  | case11 fuel c rest off stack h1 hstk ih =>
    intro h
    have hr : rest.length ≤ fuel := by simp at h; omega
    have hd : (rest.dropWhile isNlChar).length ≤ fuel :=
      le_trans (List.Sublist.length_le (List.dropWhile_sublist _)) hr
    rcases stack with _ | ⟨_ | d, s⟩
    on_goal 2 => exact (hstk s rfl).elim
    all_goals
      simp only [tokenizeGo, h1]
      exact partition_cons .newline (c :: rest.takeWhile isNlChar) off (ih hd) (by simp)
        (by simp [List.takeWhile_append_dropWhile]) (by simp only [List.length_cons]; omega)
  | case12 fuel c off stack h1 c2 tail h2 hstk ih =>
    intro h
    have hr : tail.length ≤ fuel := by simp at h; omega
    rcases stack with _ | ⟨_ | d, s⟩
    on_goal 2 => exact (hstk s rfl).elim
    all_goals
      simp only [tokenizeGo, h1, h2]
      exact partition_cons .stringLiteral [c, c2] off (ih hr) (by simp) (by simp) (by simp)
  | case13 fuel c off stack h1 c2 tail hstk h2 ih =>
    intro h
    have hr : (c2 :: tail).length ≤ fuel := by simp at h ⊢; omega
    obtain ⟨ch2, cp2, ty2⟩ := c2
    rcases stack with _ | ⟨_ | d, s⟩
    on_goal 2 => exact (hstk s rfl).elim
    all_goals cases ty2
    all_goals
      first
      | exact absurd rfl h2
      | (simp only [tokenizeGo, h1]
         exact partition_cons .invalid [c] off (ih hr) (by simp) (by simp) (by simp))
  | case14 fuel c off stack h1 hstk =>
    intro h
    rcases stack with _ | ⟨_ | d, s⟩
    on_goal 2 => exact (hstk s rfl).elim
    all_goals
      simp only [tokenizeGo, h1]
      exact partition_single .invalid [c] off (by simp) rfl
  | case15 fuel c rest off stack h1 hstk ih =>
    intro h
    have hr : rest.length ≤ fuel := by simp at h; omega
    rcases stack with _ | ⟨_ | d, s⟩
    on_goal 2 => exact (hstk s rfl).elim
    all_goals
      simp only [tokenizeGo, h1]
      exact partition_cons .invalid [c] off (ih hr) (by simp) (by simp) (by simp)
  | case16 fuel c rest off h1 h2 d s hstk ih =>
    intro h
    have hr : rest.length ≤ fuel := by simp at h; omega
    simp only [tokenizeGo, h1]
    rw [if_pos h2]
    exact partition_cons .bracket [c] off (ih hr) (by simp) (by simp) (by simp)
  | case17 fuel c rest off stack h1 h2 hstk hint ih =>
    intro h
    have hr : rest.length ≤ fuel := by simp at h; omega
    rcases stack with _ | ⟨_ | d, s⟩
    on_goal 2 => exact (hstk s rfl).elim
    on_goal 2 => exact (hint d s rfl).elim
    all_goals
      simp only [tokenizeGo, h1]
      rw [if_pos h2]
      exact partition_cons .bracket [c] off (ih hr) (by simp) (by simp) (by simp)
  | case18 fuel c rest off h1 h2 h3 s hstk ih =>
    intro h
    have hr : rest.length ≤ fuel := by simp at h; omega
    simp only [tokenizeGo, h1]
    rw [if_neg h2, if_pos h3]
    exact partition_cons .interpolationEnd [c] off (ih hr) (by simp) (by simp) (by simp)
  | case19 fuel c rest off h1 h2 h3 d s hstk ih =>
    intro h
    have hr : rest.length ≤ fuel := by simp at h; omega
    simp only [tokenizeGo, h1]
    rw [if_neg h2, if_pos h3]
    exact partition_cons .bracket [c] off (ih hr) (by simp) (by simp) (by simp)
  | case20 fuel c rest off stack h1 h2 h3 hstk h0 hsucc ih =>
    intro h
    have hr : rest.length ≤ fuel := by simp at h; omega
    rcases stack with _ | ⟨_ | (_ | d), s⟩
    on_goal 2 => exact (hstk s rfl).elim
    on_goal 2 => exact (h0 s rfl).elim
    on_goal 2 => exact (hsucc d s rfl).elim
    all_goals
      simp only [tokenizeGo, h1]
      rw [if_neg h2, if_pos h3]
      exact partition_cons .bracket [c] off (ih hr) (by simp) (by simp) (by simp)
  | case21 fuel c rest off stack h1 h2 h3 hstk ih =>
    intro h
    have hr : rest.length ≤ fuel := by simp at h; omega
    rcases stack with _ | ⟨_ | d, s⟩
    on_goal 2 => exact (hstk s rfl).elim
    all_goals
      simp only [tokenizeGo, h1]
      rw [if_neg h2, if_neg h3]
      exact partition_cons .bracket [c] off (ih hr) (by simp) (by simp) (by simp)
  | case22 fuel c rest off stack h1 h2 hstk ih =>
    intro h
    have hr : rest.length ≤ fuel := by simp at h; omega
    rcases stack with _ | ⟨_ | d, s⟩
    on_goal 2 => exact (hstk s rfl).elim
    all_goals
      simp only [tokenizeGo, h1]
      rw [if_pos h2]
      exact partition_cons .operator [c] off (ih hr) (by simp) (by simp) (by simp)
  | case23 fuel c rest off stack h1 h2 hstk ih =>
    intro h
    have hr : rest.length ≤ fuel := by simp at h; omega
    have hn := matchOpLen_le (c :: rest)
    have hd : ((c :: rest).drop (matchOpLen (c :: rest))).length ≤ fuel := by
      simp [List.length_drop]
      simp at h
      omega
    rcases stack with _ | ⟨_ | d, s⟩
    on_goal 2 => exact (hstk s rfl).elim
    all_goals
      simp only [tokenizeGo, h1]
      rw [if_neg h2]
      exact partition_cons .operator ((c :: rest).take (matchOpLen (c :: rest))) off (ih hd)
        (by intro hemp; have := congrArg List.length hemp; simp [List.length_take] at this; omega)
        (List.take_append_drop _ _)
        (by simp only [List.length_take]; omega)
  | case24 fuel c rest off stack h1 hstk ih =>
    intro h
    have hr : rest.length ≤ fuel := by simp at h; omega
    have hd : (rest.dropWhile isOtherChar).length ≤ fuel :=
      le_trans (List.Sublist.length_le (List.dropWhile_sublist _)) hr
    rcases stack with _ | ⟨_ | d, s⟩
    on_goal 2 => exact (hstk s rfl).elim
    all_goals
      simp only [tokenizeGo, h1]
      exact partition_cons .invalid (c :: rest.takeWhile isOtherChar) off (ih hd) (by simp)
        (by simp [List.takeWhile_append_dropWhile]) (by simp only [List.length_cons]; omega)

lemma tokenizeGo_nil (f off : Nat) (st : List LexContext) : tokenizeGo f [] off st = [] := by
  cases f <;> rfl

lemma chained_ne_nil : ∀ {off : Nat} {ts : List Token}, chained off ts →
    ∀ t ∈ ts, t.characters ≠ [] := by
  intro off ts
  induction ts generalizing off with
  | nil => intro _ t ht; cases ht
  | cons a l ih =>
    intro h t ht
    obtain ⟨hne, _, hc⟩ := h
    rcases List.mem_cons.mp ht with rfl | ht2
    · exact hne
    · exact ih hc t ht2

lemma chained_head : ∀ {off : Nat} {ts : List Token}, chained off ts →
    ∀ hne : ts ≠ [], (ts.head hne).offset = off := by
  intro off ts h hne
  cases ts with
  | nil => exact absurd rfl hne
  | cons a l => exact h.2.1

lemma chained_le : ∀ {off : Nat} {ts : List Token}, chained off ts →
    ∀ t ∈ ts, off ≤ t.offset := by
  intro off ts
  induction ts generalizing off with
  | nil => intro _ t ht; cases ht
  | cons a l ih =>
    intro h t ht
    obtain ⟨_, ha, hc⟩ := h
    rcases List.mem_cons.mp ht with rfl | ht2
    · omega
    · have := ih hc t ht2
      omega

lemma chained_consec : ∀ {ts : List Token} {off : Nat}, chained off ts →
    ∀ i (hi : i + 1 < ts.length),
      (ts.get ⟨i, Nat.lt_of_succ_lt hi⟩).offset +
        (ts.get ⟨i, Nat.lt_of_succ_lt hi⟩).characters.length =
        (ts.get ⟨i + 1, hi⟩).offset := by
  intro ts
  induction ts with
  | nil => intro off _ i hi; simp at hi
  | cons a l ih =>
    intro off h i hi
    obtain ⟨_, ha, hc⟩ := h
    cases i with
    | zero =>
      cases l with
      | nil => simp at hi
      | cons b l2 =>
        obtain ⟨_, hb, _⟩ := hc
        show a.offset + a.characters.length = b.offset
        omega
    | succ i2 =>
      exact ih hc i2 (Nat.succ_lt_succ_iff.mp hi)

lemma chained_last : ∀ {ts : List Token} {off : Nat}, chained off ts →
    ∀ hne : ts ≠ [],
      (ts.getLast hne).offset + (ts.getLast hne).characters.length =
        off + (ts.flatMap Token.characters).length := by
  intro ts
  induction ts with
  | nil => intro off _ hne; exact absurd rfl hne
  | cons a l ih =>
    intro off h hne
    obtain ⟨_, ha, hc⟩ := h
    cases l with
    | nil =>
      simp [List.getLast]
      omega
    | cons b l2 =>
      have hlast : (a :: b :: l2).getLast hne = (b :: l2).getLast (by simp) :=
        List.getLast_cons (by simp)
      rw [hlast]
      have := ih hc (by simp)
      simp only [List.flatMap_cons, List.length_append] at this ⊢
      omega

lemma chained_slice : ∀ {ts : List Token} {off : Nat} {cs : List Character},
    chained off ts → ts.flatMap Token.characters = cs →
    ∀ t ∈ ts, t.characters = (cs.drop (t.offset - off)).take t.characters.length := by
  intro ts
  induction ts with
  | nil => intro off cs _ _ t ht; cases ht
  | cons a l ih =>
    intro off cs h hflat t ht
    obtain ⟨hne, ha, hc⟩ := h
    subst hflat
    rcases List.mem_cons.mp ht with rfl | ht2
    · have h0 : t.offset - off = 0 := by omega
      rw [List.flatMap_cons, h0, List.drop_zero]
      exact (List.take_left _ _).symm
    · have hle := chained_le hc t ht2
      have ihh := ih hc rfl t ht2
      have hsplit : t.offset - off =
          a.characters.length + (t.offset - (off + a.characters.length)) := by omega
      rw [List.flatMap_cons, hsplit, List.drop_append]
      exact ihh

/-- C1: the tokens produced by the Tokenizer partition the input Character
sequence exactly: each token is a non-empty contiguous slice, consecutive
tokens chain by offset plus length, the first token starts at offset 0, the
last token ends exactly at the input length, and concatenating all tokens'
characters reconstructs the input. -/
theorem claim_c1 (cs : List Character) :
    (tokenize cs).flatMap Token.characters = cs ∧
    (∀ t ∈ tokenize cs, t.characters ≠ [] ∧
      t.characters = (cs.drop t.offset).take t.characters.length) ∧
    (∀ i (hi : i + 1 < (tokenize cs).length),
      ((tokenize cs).get ⟨i, Nat.lt_of_succ_lt hi⟩).offset +
        ((tokenize cs).get ⟨i, Nat.lt_of_succ_lt hi⟩).characters.length =
        ((tokenize cs).get ⟨i + 1, hi⟩).offset) ∧
    (∀ hne : tokenize cs ≠ [],
      ((tokenize cs).head hne).offset = 0 ∧
      ((tokenize cs).getLast hne).offset +
        ((tokenize cs).getLast hne).characters.length = cs.length) := by
  obtain ⟨hflat, hch⟩ := tokenizeGo_partition cs.length cs 0 [] le_rfl
  refine ⟨hflat, ?_, ?_, ?_⟩
  · intro t ht
    refine ⟨chained_ne_nil hch t ht, ?_⟩
    have := chained_slice hch hflat t ht
    simpa using this
  · exact fun i hi => chained_consec hch i hi
  · intro hne
    refine ⟨chained_head hch hne, ?_⟩
    have := chained_last hch hne
    rw [hflat] at this
    simpa using this

lemma isOtherChar_eq_true {a : Character} (h : a.type = CharacterType.other) :
    isOtherChar a = true := by
  simp [isOtherChar, h]

lemma tokenize_all_other (cs : List Character) (hne : cs ≠ [])
    (h : ∀ c ∈ cs, c.type = CharacterType.other) :
    tokenize cs = [⟨.invalid, 0, cs⟩] := by
  cases cs with
  | nil => exact absurd rfl hne
  | cons c rest =>
    have htw : rest.takeWhile isOtherChar = rest := by
      rw [List.takeWhile_eq_self_iff]
      intro a ha
      exact isOtherChar_eq_true (h a (List.mem_cons_of_mem _ ha))
    have hdw : rest.dropWhile isOtherChar = [] := by
      rw [List.dropWhile_eq_nil_iff]
      intro a ha
      exact isOtherChar_eq_true (h a (List.mem_cons_of_mem _ ha))
    obtain ⟨ch, cp, ty⟩ := c
    have hty : ty = CharacterType.other := h ⟨ch, cp, ty⟩ (List.mem_cons_self _ _)
    subst hty
    show tokenizeGo (rest.length + 1) (⟨ch, cp, CharacterType.other⟩ :: rest) 0 [] = _
    simp only [tokenizeGo, htw, hdw, tokenizeGo_nil]

/-- C2: concatenating the char field across the Characters of the
Characterizer's output, in order, yields exactly the input text: the
classification is lossless. -/
theorem claim_c2 (s : String) :
    List.asString ((characterize s).map Character.char) = s := by
  cases s with
  | mk data =>
    show List.asString ((data.map toCharacter).map Character.char) = String.mk data
    rw [List.map_map]
    have hid : Character.char ∘ toCharacter = id := rfl
    rw [hid, List.map_id]
    rfl

/-- C3: totality and well-formedness — for every input the Characterizer
yields one Character per code point and the Tokenizer yields a token stream
that covers the whole Character sequence with chained offsets; the empty
string gives empty outputs; a text made only of characters of category
other is still lexed, as a single invalid token, rather than failing. -/
theorem claim_c3 (s : String) :
    (characterize s).length = s.data.length ∧
    (tokenize (characterize s)).flatMap Token.characters = characterize s ∧
    chained 0 (tokenize (characterize s)) ∧
    (s = "" → characterize s = [] ∧ tokenize (characterize s) = []) ∧
    (∀ txt : String, txt.data ≠ [] → (∀ c ∈ txt.data, classify c = CharacterType.other) →
      tokenize (characterize txt) = [⟨.invalid, 0, characterize txt⟩]) := by
  obtain ⟨hflat, hch⟩ :=
    tokenizeGo_partition (characterize s).length (characterize s) 0 [] le_rfl
  refine ⟨by simp [characterize], hflat, hch, ?_, ?_⟩
  · rintro rfl
    exact ⟨rfl, rfl⟩
  · intro txt hne hcl
    apply tokenize_all_other
    · simpa [characterize] using hne
    · intro c hc
      simp only [characterize, List.mem_map] at hc
      obtain ⟨c0, hc0, rfl⟩ := hc
      simpa [toCharacter] using hcl c0 hc0

/-- C6: the Characterizer emits exactly one Character per input scalar
value, in input order, with the category a total function of the single
code point alone: any two texts give the same category to positions that
hold the same code point. -/
theorem claim_c6 (t t2 : String) (i j : Nat) (c : Char)
    (hi : t.data[i]? = some c) (hj : t2.data[j]? = some c) :
    (characterize t).length = t.data.length ∧
    (characterize t)[i]? = some (toCharacter c) ∧
    ((characterize t)[i]?).map Character.type =
      ((characterize t2)[j]?).map Character.type ∧
    (toCharacter c).type = classify c := by
  have h1 : (characterize t)[i]? = some (toCharacter c) := by
    simp [characterize, List.getElem?_map, hi]
  have h2 : (characterize t2)[j]? = some (toCharacter c) := by
    simp [characterize, List.getElem?_map, hj]
  exact ⟨by simp [characterize], h1, by rw [h1, h2], rfl⟩

/-- Witness for C6 at concrete inputs: the letter a at index 0 of the text
a and index 1 of the text ba. -/
theorem claim_c6_w :
    (characterize ("a")).length = ("a" : String).data.length ∧
    (characterize ("a"))[0]? = some (toCharacter 'a') ∧
    ((characterize ("a"))[0]?).map Character.type =
      ((characterize ("ba"))[1]?).map Character.type ∧
    (toCharacter 'a').type = classify 'a' :=
  claim_c6 ("a") ("ba") 0 1 'a' rfl rfl

/-- C8: the two operator-symbol characters colon and equals lex as one
two-character operator token by longest match, not as two one-character
operator tokens. -/
theorem claim_c8 :
    tokenize (characterize (":=")) = [⟨.operator, 0, characterize (":=")⟩] ∧
    (characterize (":=")).length = 2 := by
  exact ⟨by decide, by decide⟩

/-- C9: the text hours(4) lexes as exactly four tokens — identifier hours,
bracket (, number 4, bracket ) — with the parentheses emitted as bracket
tokens. -/
theorem claim_c9 :
    tokenize (characterize ("hours(4)")) =
      [⟨.identifier, 0, characterize ("hours")⟩,
       ⟨.bracket, 5, characterize ("(")⟩,
       ⟨.number, 6, characterize ("4")⟩,
       ⟨.bracket, 7, characterize (")")⟩] := by
  decide

/-- C7: the concrete interpolation scenario — the string-literal opener, an
interpolation opener, the embedded identifier delay, the interpolation
closer, the Hangul string content, the closing quote of the string literal,
and the leftover hash; every Hangul syllable of the content is classified
letter. -/
theorem claim_c7 :
    tokenize (characterize ("#\"#(delay)시간동안 기다리는 중\"#")) =
      [⟨.stringLiteral, 0, characterize ("#\"")⟩,
       ⟨.interpolationStart, 2, characterize ("#(")⟩,
       ⟨.identifier, 4, characterize ("delay")⟩,
       ⟨.interpolationEnd, 9, characterize (")")⟩,
       ⟨.stringLiteral, 10, characterize ("시간동안 기다리는 중")⟩,
       ⟨.stringLiteral, 21, characterize ("\"")⟩,
       ⟨.invalid, 22, characterize ("#")⟩] ∧
    ("시간동안기다리는중" : String).data.map classify =
      List.replicate 9 CharacterType.letter := by
  exact ⟨by decide, by decide⟩

/-- The hash character that introduces string-literal and interpolation
syntax. -/
def hashChar : Char := '#'

/-- The double-quote character that delimits string literals. -/
def quoteChar : Char := Char.ofNat 0x22

lemma isIdentChar_of_letter {a : Character} (h : a.type = CharacterType.letter) :
    isIdentChar a = true := by
  simp [isIdentChar, h]

/-- A string literal left open at end-of-input: whatever the offset and
whatever the enclosing stack below the open string frame (so after any
preceding tokens and under any nesting of interpolation contexts), content
that never closes the string — interior hashes included — is emitted as
exactly one accumulated token of kind invalid, and the machine halts. -/
lemma tokenizeGo_open_string : ∀ (rest : List Character) (off : Nat)
    (stk : List LexContext) (fuel : Nat), rest.length ≤ fuel → rest ≠ [] →
    takeContent rest = (rest, []) →
    tokenizeGo fuel rest off (.stringLit :: stk) = [⟨.invalid, off, rest⟩] := by
  intro rest off stk fuel hf hne hct
  cases rest with
  | nil => exact absurd rfl hne
  | cons c r2 =>
    obtain ⟨f, rfl⟩ : ∃ f, fuel = f + 1 := ⟨fuel - 1, by simp at hf; omega⟩
    obtain ⟨ch, cp, ty⟩ := c
    cases ty
    case quote =>
      simp [takeContent] at hct
    case hash =>
      cases r2 with
      | nil => simp [tokenizeGo]
      | cons c2 r3 =>
        by_cases h2 : c2.char = '('
        · simp [takeContent, h2] at hct
        · have hp : (takeContent (c2 :: r3)).1 = c2 :: r3 ∧ (takeContent (c2 :: r3)).2 = [] := by
            simp [takeContent, h2] at hct
            exact hct
          simp only [tokenizeGo]
          rw [if_neg h2, hp.1, hp.2]
          simp [tokenizeGo_nil]
    all_goals
      have hp : (takeContent r2).1 = r2 ∧ (takeContent r2).2 = [] := by
        simp [takeContent] at hct
        exact hct
      simp only [tokenizeGo]
      rw [hp.1, hp.2]
      simp [tokenizeGo_nil]

/-- An interpolation expression left open at end-of-input: whatever the
bracket depth and whatever the enclosing stack (the open string frames stay
below), a trailing letter run is emitted as a complete identifier token and
the machine halts cleanly — open contexts never raise. -/
lemma tokenizeGo_open_interp : ∀ (rest : List Character) (off : Nat)
    (stk : List LexContext) (d fuel : Nat), rest.length ≤ fuel → rest ≠ [] →
    (∀ c ∈ rest, c.type = CharacterType.letter) →
    tokenizeGo fuel rest off (.interp d :: stk) = [⟨.identifier, off, rest⟩] := by
  intro rest off stk d fuel hf hne hl
  cases rest with
  | nil => exact absurd rfl hne
  | cons c r2 =>
    obtain ⟨f, rfl⟩ : ∃ f, fuel = f + 1 := ⟨fuel - 1, by simp at hf; omega⟩
    have htw : r2.takeWhile isIdentChar = r2 := by
      rw [List.takeWhile_eq_self_iff]
      intro a ha
      exact isIdentChar_of_letter (hl a (List.mem_cons_of_mem _ ha))
    have hdw : r2.dropWhile isIdentChar = [] := by
      rw [List.dropWhile_eq_nil_iff]
      intro a ha
      exact isIdentChar_of_letter (hl a (List.mem_cons_of_mem _ ha))
    obtain ⟨ch, cp, ty⟩ := c
    have hty : ty = CharacterType.letter := hl _ (List.mem_cons_self _ _)
    subst hty
    simp [tokenizeGo, htw, hdw, tokenizeGo_nil]

lemma tokenize_unterminated (cd : List Character) (hne : cd ≠ [])
    (hct : takeContent cd = (cd, [])) :
    tokenize (toCharacter hashChar :: toCharacter quoteChar :: cd) =
      [⟨.stringLiteral, 0, [toCharacter hashChar, toCharacter quoteChar]⟩,
       ⟨.invalid, 2, cd⟩] := by
  rw [show toCharacter hashChar = (⟨hashChar, 0x23, CharacterType.hash⟩ : Character) from rfl,
      show toCharacter quoteChar = (⟨quoteChar, 0x22, CharacterType.quote⟩ : Character) from rfl]
  show tokenizeGo (cd.length + 1 + 1) _ 0 [] = _
  simp only [tokenizeGo, Nat.zero_add]
  rw [tokenizeGo_open_string cd 2 [] (cd.length + 1) (by omega) hne hct]

/-- C5: inputs whose string literal or interpolation expression is still
open when the Character sequence is exhausted. First, every input — however
malformed — yields a complete token stream covering it exactly, with
chained offsets (nothing ever raises). Second, in any open-string state
(any offset, any enclosing stack, so after any preceding tokens and under
any interpolation nesting) content that never closes the string — interior
hashes allowed — is emitted as one accumulated token of kind invalid.
Third, the whole-input form: the opener followed by any such never-closing
content lexes to the opener token plus one invalid token. Fourth, an open
interpolation expression at end-of-input halts cleanly, its trailing letter
run emitted as a complete identifier token. The last two conjuncts compute
the concrete streams for an unterminated string with a preceding token and
an interior hash, and for an input exhausted inside an open interpolation
expression. -/
theorem claim_c5 :
    (∀ cs : List Character, (tokenize cs).flatMap Token.characters = cs ∧
      chained 0 (tokenize cs)) ∧
    (∀ (rest : List Character) (off : Nat) (stk : List LexContext) (fuel : Nat),
      rest.length ≤ fuel → rest ≠ [] → takeContent rest = (rest, []) →
      tokenizeGo fuel rest off (.stringLit :: stk) = [⟨.invalid, off, rest⟩]) ∧
    (∀ content : String, content.data ≠ [] →
      takeContent (characterize content) = (characterize content, []) →
      tokenize (characterize (String.mk (hashChar :: quoteChar :: content.data))) =
        [⟨.stringLiteral, 0, [toCharacter hashChar, toCharacter quoteChar]⟩,
         ⟨.invalid, 2, characterize content⟩]) ∧
    (∀ (rest : List Character) (off : Nat) (stk : List LexContext) (d fuel : Nat),
      rest.length ≤ fuel → rest ≠ [] → (∀ c ∈ rest, c.type = CharacterType.letter) →
      tokenizeGo fuel rest off (.interp d :: stk) = [⟨.identifier, off, rest⟩]) ∧
    tokenize (characterize ("x #\"ab#cd")) =
      [⟨.identifier, 0, characterize ("x")⟩,
       ⟨.whitespace, 1, characterize (" ")⟩,
       ⟨.stringLiteral, 2, characterize ("#\"")⟩,
       ⟨.invalid, 4, characterize ("ab#cd")⟩] ∧
    tokenize (characterize ("#\"#(abc")) =
      [⟨.stringLiteral, 0, characterize ("#\"")⟩,
       ⟨.interpolationStart, 2, characterize ("#(")⟩,
       ⟨.identifier, 4, characterize ("abc")⟩] := by
  refine ⟨?_, tokenizeGo_open_string, ?_, tokenizeGo_open_interp, by decide, by decide⟩
  · intro cs
    exact tokenizeGo_partition cs.length cs 0 [] le_rfl
  · intro content hne hct
    exact tokenize_unterminated (characterize content)
      (by simpa [characterize] using hne) hct

/-- Witness for C5 at a concrete never-closed content with an interior
hash. -/
theorem claim_c5_w :
    tokenize (characterize (String.mk (hashChar :: quoteChar :: ("ab#cd" : String).data))) =
      [⟨.stringLiteral, 0, [toCharacter hashChar, toCharacter quoteChar]⟩,
       ⟨.invalid, 2, characterize ("ab#cd")⟩] :=
  claim_c5.2.2.1 ("ab#cd") (by decide) (by decide)

/-- UTF-16 code-unit count of one scalar value: one code unit below 0x10000,
two (a surrogate pair) above. -/
def utf16Len (c : Char) : Nat := if c.toNat < 0x10000 then 1 else 2

/-- UTF-16 code-unit offset of character index i of a text. -/
def utf16Offset (t : String) (i : Nat) : Nat := ((t.data.take i).map utf16Len).sum

/-- The scroll-target search of TokenizerView (index.tsx): the first token
accepted by the range test, offset before the token start or before the
token end; none models the minus-one result of findIndex. -/
def findScrollIndex (off : Nat) : List Token → Option Nat
  | [] => none
  | t :: ts =>
    if off < t.offset ∨ off < t.offset + t.characters.length then some 0
    else (findScrollIndex off ts).map (fun n => n + 1)

lemma sum_ones_take : ∀ (l : List Char) (i : Nat), (∀ c ∈ l, utf16Len c = 1) →
    i ≤ l.length → ((l.take i).map utf16Len).sum = i := by
  intro l
  induction l with
  | nil =>
    intro i _ hi
    simp at hi
    simp [hi]
  | cons a l2 ih =>
    intro i h hi
    cases i with
    | zero => simp
    | succ i2 =>
      simp only [List.take_succ_cons, List.map_cons, List.sum_cons]
      rw [h a (List.mem_cons_self _ _),
        ih i2 (fun c hc => h c (List.mem_cons_of_mem _ hc)) (by simp at hi; omega)]
      omega

lemma findScrollIndex_finds : ∀ (ts : List Token) (o off : Nat), chained o ts →
    o ≤ off → off < o + (ts.flatMap Token.characters).length →
    ∃ j tok, findScrollIndex off ts = some j ∧ ts[j]? = some tok ∧
      tok.offset ≤ off ∧ off < tok.offset + tok.characters.length := by
  intro ts
  induction ts with
  | nil =>
    intro o off _ hlo hhi
    simp at hhi
    omega
  | cons a l ih =>
    intro o off hch hlo hhi
    obtain ⟨hne, ha, hc⟩ := hch
    by_cases hcase : off < o + a.characters.length
    · have hcond : off < a.offset ∨ off < a.offset + a.characters.length :=
        Or.inr (by omega)
      refine ⟨0, a, ?_, by simp, by omega, by omega⟩
      simp only [findScrollIndex]
      rw [if_pos hcond]
    · have hcond : ¬(off < a.offset ∨ off < a.offset + a.characters.length) := by
        push_neg
        refine ⟨by omega, by omega⟩
      obtain ⟨j, tok, h1, h2, h3, h4⟩ := ih (o + a.characters.length) off hc (by omega)
        (by simp only [List.flatMap_cons, List.length_append] at hhi; omega)
      refine ⟨j + 1, tok, ?_, by simpa using h2, h3, h4⟩
      simp only [findScrollIndex]
      rw [if_neg hcond, h1]
      rfl

/-- C10: when every code point of the text lies below 0x10000 the UTF-16
code-unit offset of character index i equals i, so Character indices and
token offsets coincide with the editor's code-unit offsets, the i-th
Character is the code point at code-unit offset i, and the TokenizerView
scroll search finds the token containing the selection offset; one
supplementary code point already breaks the identification (its next
code-unit offset is 2, not 1). -/
theorem claim_c10 (t : String) (hbmp : ∀ c ∈ t.data, c.toNat < 0x10000) :
    (∀ i, i ≤ t.data.length → utf16Offset t i = i) ∧
    (∀ (i : Nat) (c : Char), t.data[i]? = some c →
      (characterize t)[i]? = some (toCharacter c)) ∧
    (∀ off, off < (characterize t).length →
      ∃ j tok, findScrollIndex off (tokenize (characterize t)) = some j ∧
        (tokenize (characterize t))[j]? = some tok ∧
        tok.offset ≤ off ∧ off < tok.offset + tok.characters.length) ∧
    utf16Offset (String.mk [Char.ofNat 0x10348, 'a']) 1 = 2 := by
  refine ⟨?_, ?_, ?_, by decide⟩
  · intro i hi
    refine sum_ones_take t.data i ?_ hi
    intro c hc
    have := hbmp c hc
    simp [utf16Len, this]
  · intro i c hic
    simp [characterize, List.getElem?_map, hic]
  · intro off hoff
    obtain ⟨hflat, hch⟩ :=
      tokenizeGo_partition (characterize t).length (characterize t) 0 [] le_rfl
    refine findScrollIndex_finds (tokenize (characterize t)) 0 off hch (Nat.zero_le _) ?_
    show off < 0 + ((tokenizeGo (characterize t).length (characterize t) 0 []).flatMap
      Token.characters).length
    rw [hflat]
    omega

/-- Witness for C10 at the concrete all-below-0x10000 text ab. -/
theorem claim_c10_w : utf16Offset ("ab") 2 = 2 :=
  (claim_c10 ("ab") (by decide)).1 2 (by decide)

/-- The depth-d nested-interpolation input in the style of the spec's
scenario: depth 0 is the number 1, and each further level wraps the previous
one in a string literal whose whole content is one interpolation expression. -/
def nestedText : Nat → List Char
  | 0 => ['1']
  | d + 1 => hashChar :: quoteChar :: hashChar :: '(' :: (nestedText d ++ [')', quoteChar])

/-- How many tokens the depth-d nested input produces. -/
def nestedTokenCount : Nat → Nat
  | 0 => 1
  | d + 1 => nestedTokenCount d + 4

/-- The expected token stream of the depth-d nested input starting at a
given offset: each level contributes a string opener, an interpolation
opener, the inner level's tokens, the matching interpolation closer when
bracket depth returns to zero, and the string's closing quote. -/
def nestedTokens : Nat → Nat → List Token
  | 0, off => [⟨.number, off, [toCharacter '1']⟩]
  | d + 1, off =>
    ⟨.stringLiteral, off, [toCharacter hashChar, toCharacter quoteChar]⟩ ::
    ⟨.interpolationStart, off + 2, [toCharacter hashChar, toCharacter '(']⟩ ::
    (nestedTokens d (off + 4) ++
      [⟨.interpolationEnd, off + 4 + (nestedText d).length, [toCharacter ')']⟩,
       ⟨.stringLiteral, off + 4 + (nestedText d).length + 1, [toCharacter quoteChar]⟩])

/-- A stack whose top is not an open string literal, so ordinary
token-lexing rules apply. -/
def startShaped : List LexContext → Prop
  | .stringLit :: _ => False
  | _ => True

/-- The suffix does not begin with a digit, so a number run ending right
before it is maximal. -/
def headNotDigit : List Character → Prop
  | [] => True
  | c :: _ => c.type ≠ CharacterType.digit

lemma nestedTokenCount_eq (d : Nat) : nestedTokenCount d = 4 * d + 1 := by
  induction d with
  | zero => rfl
  | succ d ih =>
    simp [nestedTokenCount, ih]
    omega

lemma nestedText_length (d : Nat) : (nestedText d).length = 6 * d + 1 := by
  induction d with
  | zero => rfl
  | succ d ih =>
    simp [nestedText, List.length_append, ih]
    omega

lemma takeWhile_digit_headNot (suffix : List Character) (h : headNotDigit suffix) :
    suffix.takeWhile isDigitChar = [] ∧ suffix.dropWhile isDigitChar = suffix := by
  cases suffix with
  | nil => exact ⟨rfl, rfl⟩
  | cons c r =>
    have hc : isDigitChar c = false := by
      obtain ⟨ch, cp, ty⟩ := c
      cases ty
      case digit => exact absurd rfl h
      all_goals rfl
    refine ⟨?_, ?_⟩ <;> simp [List.takeWhile_cons, List.dropWhile_cons, hc]

/-- Lexing the depth-d nested input followed by any suffix, in any
start-shaped context, emits exactly the expected nested tokens and then
continues on the suffix in the same context. -/
lemma tokenizeGo_nested : ∀ (d fuel : Nat) (suffix : List Character) (off : Nat)
    (st : List LexContext), startShaped st → headNotDigit suffix →
    (nestedText d).length + suffix.length ≤ fuel →
    tokenizeGo fuel ((nestedText d).map toCharacter ++ suffix) off st =
      nestedTokens d off ++
        tokenizeGo (fuel - nestedTokenCount d) suffix (off + (nestedText d).length) st := by
  intro d
  induction d with
  | zero =>
    intro fuel suffix off st hst hsuf hfuel
    obtain ⟨f, rfl⟩ : ∃ f, fuel = f + 1 :=
      ⟨fuel - 1, by simp [nestedText] at hfuel; omega⟩
    obtain ⟨htw, hdw⟩ := takeWhile_digit_headNot suffix hsuf
    have h1 : (toCharacter '1').type = CharacterType.digit := rfl
    show tokenizeGo (f + 1) (toCharacter '1' :: suffix) off st = _
    rcases st with _ | ⟨_ | d0, s⟩
    on_goal 2 => exact hst.elim
    all_goals
      simp only [tokenizeGo, h1, htw, hdw]
      simp [nestedTokens, nestedTokenCount, nestedText]
  | succ d ih =>
    intro fuel suffix off st hst hsuf hfuel
    have hL := nestedText_length d
    obtain ⟨f2, rfl⟩ : ∃ f2, fuel = f2 + 2 :=
      ⟨fuel - 2, by simp [nestedText_length] at hfuel; omega⟩
    have hshape : ((nestedText (d + 1)).map toCharacter ++ suffix) =
        toCharacter hashChar :: toCharacter quoteChar ::
          toCharacter hashChar :: toCharacter '(' ::
          ((nestedText d).map toCharacter ++
            (toCharacter ')' :: toCharacter quoteChar :: suffix)) := by
      simp [nestedText, List.map_append, List.append_assoc]
    have hH : (toCharacter hashChar).type = CharacterType.hash := rfl
    have hQ : (toCharacter quoteChar).type = CharacterType.quote := rfl
    have hg : ∃ g, f2 - nestedTokenCount d = g + 2 := by
      have hcnt := nestedTokenCount_eq d
      refine ⟨f2 - nestedTokenCount d - 2, ?_⟩
      simp [nestedText_length] at hfuel
      omega
    obtain ⟨g, hg⟩ := hg
    rw [hshape]
    rcases st with _ | ⟨_ | d0, s⟩
    on_goal 2 => exact hst.elim
    all_goals
      simp only [tokenizeGo, hH, hQ]
      rw [if_pos (show (toCharacter '(').char = '(' from rfl)]
      rw [(by omega : off + 2 + 2 = off + 4)]
      rw [ih f2 (toCharacter ')' :: toCharacter quoteChar :: suffix) (off + 4)
        (.interp 0 :: .stringLit :: _) trivial
        (by show (toCharacter ')').type ≠ CharacterType.digit; decide)
        (by simp [nestedText_length] at hfuel ⊢; omega)]
      rw [hg]
      simp only [tokenizeGo,
        (show (toCharacter ')').type = CharacterType.bracket from rfl)]
      rw [if_neg (show ¬(toCharacter ')').char = '(' from by decide)]
      rw [if_pos (show (toCharacter ')').char = ')' from rfl)]
      simp only [tokenizeGo, hQ]
      simp only [nestedTokens, nestedTokenCount]
      rw [(show f2 + 2 - (nestedTokenCount d + 4) = g from by omega)]
      rw [(show off + 4 + (nestedText d).length + 1 + 1 =
        off + (nestedText (d + 1)).length from by simp [nestedText, List.length_append]; omega)]
      simp [List.append_assoc]

lemma nestedTokens_count_start (d off : Nat) :
    (nestedTokens d off).countP
      (fun t => decide (t.type = TokenType.interpolationStart)) = d := by
  induction d generalizing off with
  | zero => simp [nestedTokens]
  | succ d ih =>
    simp [nestedTokens, List.countP_cons, List.countP_append, ih]

lemma nestedTokens_count_end (d off : Nat) :
    (nestedTokens d off).countP
      (fun t => decide (t.type = TokenType.interpolationEnd)) = d := by
  induction d generalizing off with
  | zero => simp [nestedTokens]
  | succ d ih =>
    simp [nestedTokens, List.countP_cons, List.countP_append, ih]

/-- C4: for every nesting depth d, the depth-d nested-interpolation input
tokenizes to exactly the expected recursively nested token stream — each
level's interpolation opener is matched by the interpolation closer that
pops back to its enclosing string context, and each string's delimiters
enclose their level — so the numbers of interpolation openers and closers
both equal d, with depth bounded only by the explicit context stack, not by
the grammar. -/
theorem claim_c4 (d : Nat) :
    tokenize (characterize (String.mk (nestedText d))) = nestedTokens d 0 ∧
    (nestedTokens d 0).countP
      (fun t => decide (t.type = TokenType.interpolationStart)) = d ∧
    (nestedTokens d 0).countP
      (fun t => decide (t.type = TokenType.interpolationEnd)) = d := by
  refine ⟨?_, nestedTokens_count_start d 0, nestedTokens_count_end d 0⟩
  have h := tokenizeGo_nested d ((nestedText d).map toCharacter).length [] 0 []
    trivial trivial (by simp)
  simp only [List.append_nil, tokenizeGo_nil] at h
  show tokenizeGo ((nestedText d).map toCharacter).length
    ((nestedText d).map toCharacter) 0 [] = nestedTokens d 0
  rw [List.length_map] at h
  rw [List.length_map]
  exact h

end Narucode
